import Mathlib

/-!
# Verification of the versioned-document store of io-functions-commons

This file shallowly embeds the core of the repository: the versioned
CosmosDB model (src/utils/cosmosdb_model_versioned.ts), the async-iterator
utilities (flattenAsyncIterator) and the Azure blob-storage helper
(src/utils/azure_storage.ts), and proves the testable properties of the
specification against them.

Documents are modelled as association lists from field names to values
(the JSON object shapes the code manipulates); the document store is a list
of stored documents.  The base store (cosmosdb_model.ts, whose create is the
atomic create-if-absent of the adapter) is not among the provided sources;
it is modelled from the specification, as noted on each such definition.
-/

namespace Spec2Proof

/-! ## Definitions: document model -/

/-- A JSON-ish field value: the code under verification only ever inspects
string valued and non-negative-integer valued fields. -/
inductive Value where
  | vstr (s : String)
  | vnum (n : Nat)
deriving DecidableEq, Repr

/-- A document is a finite map from field names to values, represented as an
association list (first binding wins, mirroring JS object field lookup). -/
abbrev Document := List (String × Value)

/-- Field lookup o[k]; none models the JS undefined. -/
def lookupField (d : Document) (k : String) : Option Value :=
  (d.find? (fun p => p.1 == k)).map Prod.snd

/-- Remove a field from a document. -/
def removeField (d : Document) (k : String) : Document :=
  d.filter (fun p => p.1 != k)

/-- The JS object-spread override of a single field, as in object literals
spreading a base object and then setting the field k to v. -/
def setField (d : Document) (k : String) (v : Value) : Document :=
  removeField d k ++ [(k, v)]

/-- The JS String(x) coercion applied to a model id value. -/
def valueToString : Value → String
  | .vstr s => s
  | .vnum n => Nat.repr n

/-! ## Definitions: the versioned id scheme
(cosmosdb_model_versioned.ts, lines 53-65) -/

/-- Padding length 16, the length of Number.MAX_SAFE_INTEGER
(cosmosdb_model_versioned.ts line 57). -/
def paddingLength : Nat := 16

/-- The zero-padded version: sixteen zero characters are prepended to the
decimal representation and the last sixteen characters are kept, translating
the slice(-paddingLength) of cosmosdb_model_versioned.ts lines 58-60. -/
def padVersion (version : Nat) : String :=
  let s := String.mk (List.replicate paddingLength '0') ++ Nat.repr version
  s.drop (s.length - paddingLength)

/-- The composite id MODEL_ID-VERSION generated by generateVersionedModelId
(cosmosdb_model_versioned.ts lines 53-62). -/
def generateVersionedModelId (modelId : Value) (version : Nat) : String :=
  valueToString modelId ++ "-" ++ padVersion version

/-- Version increment (cosmosdb_model_versioned.ts lines 64-65). -/
def incVersion (version : Nat) : Nat := version + 1

/-! ## Definitions: the base entity store -/

/-- Modelled from the spec: the error taxonomy of the Base Entity Store
(cosmosdb_model.ts is not among the provided sources): CONFLICT,
DECODING_ERROR, EMPTY_RESPONSE and the catch-all STORE_ERROR. -/
inductive CosmosErrors where
  | conflict
  | decodingError
  | emptyResponse
  | storeError
deriving DecidableEq, Repr

/-- The document store: the list of stored documents. -/
abbrev Store := List Document

/-- Modelled from the spec: the create of the Base Entity Store
(cosmosdb_model.ts is not among the provided sources) wraps the atomic
create-if-absent of the Document Store Adapter: it fails with CONFLICT iff a
document with the target id already exists, and otherwise stores the
document and returns it.  Store-assigned metadata is opaque to the core and
omitted here. -/
def baseCreate (s : Store) (newDoc : Document) : Store × Except CosmosErrors Document :=
  if s.any (fun d => lookupField d "id" == lookupField newDoc "id") then
    (s, .error .conflict)
  else
    (s ++ [newDoc], .ok newDoc)

/-! ## Definitions: the versioned entity store
(class CosmosdbModelVersioned, cosmosdb_model_versioned.ts lines 70-257) -/

/-- The configuration of a CosmosdbModelVersioned instance: the model-id
field name and the optional partition-key field name. -/
structure VersionedModel where
  modelIdKey : String
  partitionKey : Option String := none

/-- Access o[modelIdKey] (getModelId, line 211).  The typed TS interface
guarantees the field exists; an absent field is the JS undefined, which
stringifies to the string undefined. -/
def getModelId (m : VersionedModel) (o : Document) : Value :=
  (lookupField o m.modelIdKey).getD (.vstr "undefined")

/-- Access to the typed version field of a retrieved document.  Theorems
always pin it down with an explicit hypothesis. -/
def getVersion (o : Document) : Nat :=
  match lookupField o "version" with
  | some (.vnum n) => n
  | _ => 0

/-- The six store-metadata and identity fields destructured away by
toBaseType (cosmosdb_model_versioned.ts line 254). -/
def metaKeys : List String := ["_etag", "_rid", "_self", "_ts", "id", "version"]

/-- Strip the store metadata fields (toBaseType, lines 253-256). -/
def toBaseType (o : Document) : Document :=
  o.filter (fun p => !(metaKeys.contains p.1))

/-- Insert a document with a specific version (createNewVersion, lines
234-248): spread o, then override id with the composite id and version with
the given version, and delegate to the base-store create. -/
def createNewVersion (m : VersionedModel) (s : Store) (o : Document) (version : Nat) :
    Store × Except CosmosErrors Document :=
  let modelId := getModelId m o
  baseCreate s
    (setField (setField o "id" (.vstr (generateVersionedModelId modelId version)))
      "version" (.vnum version))

/-- Create the first revision of a document (create, lines 103-105): always
version 0. -/
def create (m : VersionedModel) (s : Store) (o : Document) :
    Store × Except CosmosErrors Document :=
  createNewVersion m s o 0

/-- Create the next revision from a retrieved document (update, lines
148-157): strip metadata, increment the carried version. -/
def update (m : VersionedModel) (s : Store) (o : Document) :
    Store × Except CosmosErrors Document :=
  createNewVersion m s (toBaseType o) (incVersion (getVersion o))

/-- The shape of the query issued by findLastVersionByModelId. -/
structure SqlFindQuery where
  filterKey : String
  filterValue : Value
  orderByVersionDesc : Bool
  maxItemCount : Nat
  partitionKey : Value
deriving DecidableEq, Repr

/-- The query built by findLastVersionByModelId (lines 165-183): select the
documents whose model-id field equals the given model id, ordered by version
descending, at most one item, scoped to the given partition key or to the
model id when none is given. -/
def mkFindLastVersionQuery (m : VersionedModel) (modelId : Value)
    (partitionKey : Option Value) : SqlFindQuery :=
  { filterKey := m.modelIdKey
    filterValue := modelId
    orderByVersionDesc := true
    maxItemCount := 1
    partitionKey := partitionKey.getD modelId }

/-- Version-descending comparison used to execute ORDER BY m.version DESC. -/
def versionGE (d₁ d₂ : Document) : Prop := getVersion d₂ ≤ getVersion d₁

instance : DecidableRel versionGE := fun _ _ => Nat.decLe _ _

instance : IsTotal Document versionGE := ⟨fun _ _ => Nat.le_total _ _⟩

instance : IsTrans Document versionGE := ⟨fun _ _ _ h₁ h₂ => Nat.le_trans h₂ h₁⟩

/-- Modelled from the spec: the query capability of the Document Store
Adapter together with findOneByQuery of cosmosdb_model.ts (not among the
provided sources): return the documents matching the filter, ordered as
requested, truncated to maxItemCount, and yield the first one or None.
Partition scoping is an efficiency concern (the store assumes the model id
is the partition key) and does not change the result set. -/
def runFindQuery (s : Store) (q : SqlFindQuery) : Option Document :=
  ((List.insertionSort versionGE
      (s.filter (fun d => lookupField d q.filterKey == some q.filterValue))).take
    q.maxItemCount).head?

/-- Find the last version of a document (findLastVersionByModelId, lines
165-183). -/
def findLastVersionByModelId (m : VersionedModel) (s : Store) (modelId : Value)
    (partitionKey : Option Value) : Option Document :=
  runFindQuery s (mkFindLastVersionQuery m modelId partitionKey)

/-- Extract the search key of a document (getSearchKey, lines 189-206). -/
def getSearchKey (m : VersionedModel) (o : Document) : Value × Option Value :=
  match m.partitionKey with
  | none => (getModelId m o, none)
  | some pk => (getModelId m o, some ((lookupField o pk).getD (.vstr "undefined")))

/-- Next version for a model id (getNextVersion, lines 219-226): the last
stored version incremented by 1, or 0 if none exists. -/
def getNextVersion (m : VersionedModel) (s : Store) (searchKey : Value × Option Value) :
    Nat :=
  match findLastVersionByModelId m s searchKey.1 searchKey.2 with
  | some d => incVersion (getVersion d)
  | none => 0

/-- Force create a new revision (upsert, lines 121-128): the version is
computed from the latest stored one. -/
def upsert (m : VersionedModel) (s : Store) (o : Document) :
    Store × Except CosmosErrors Document :=
  createNewVersion m s o (getNextVersion m s (getSearchKey m o))

/-- The document written by createNewVersion for a string model id. -/
def newVersionDoc (o : Document) (mid : String) (version : Nat) : Document :=
  setField (setField o "id" (.vstr (generateVersionedModelId (.vstr mid) version)))
    "version" (.vnum version)

/-- The invariant this layer maintains on stored documents: every document
carries a string model id, a numeric version, and the composite id generated
from them. -/
def WellFormedStore (m : VersionedModel) (s : Store) : Prop :=
  ∀ d ∈ s, ∃ mid : String, ∃ v : Nat,
    lookupField d m.modelIdKey = some (.vstr mid) ∧
    lookupField d "version" = some (.vnum v) ∧
    lookupField d "id" = some (.vstr (generateVersionedModelId (.vstr mid) v))

/-! ## Definitions: decimal representation helpers -/

/-- Big-endian decimal digit characters of a natural number. -/
def digitsBE (n : Nat) : List Char :=
  if h : n < 10 then [Nat.digitChar n]
  else
    have : n / 10 < n := Nat.div_lt_self (by omega) (by omega)
    digitsBE (n / 10) ++ [Nat.digitChar (n % 10)]
termination_by n

/-- Numeric value of a decimal digit character. -/
def charVal (c : Char) : Nat := c.toNat - '0'.toNat

/-- Numeric value of a big-endian decimal digit character list. -/
def charsToNat : List Char → Nat
  | [] => 0
  | c :: cs => charVal c * 10 ^ cs.length + charsToNat cs

/-- A character is one of the ten decimal digit characters. -/
def IsDecDigit (c : Char) : Prop := ∃ d, d < 10 ∧ c = Nat.digitChar d

/-! ## Definitions: flattenAsyncIterator (src/unnamed/part_005, lines 73-92) -/

/-- The mutable closure state of flattenAsyncIterator, together with the
remaining yields of the source iterator (the source is modelled as the
finite list of arrays it will yield before reporting done). -/
structure FlattenState (α : Type) where
  index : Nat
  flattenArray : List α
  source : List (List α)
deriving DecidableEq, Repr

/-- One result of the flattened iterator: done true, or done false carrying
a value which may be the JS undefined (modelled as none). -/
inductive FlattenResult (α : Type) where
  | done
  | yield (value : Option α)
deriving DecidableEq, Repr

/-- One call of the next function of flattenAsyncIterator (src/unnamed/
part_005 lines 80-91): when the buffer is exhausted, pull one array from the
source (returning done if the source is done) and append it to the buffer;
then return the buffer element at index, postincrementing index.  An
out-of-bounds read is the JS undefined. -/
def flattenNext {α : Type} (s : FlattenState α) : FlattenResult α × FlattenState α :=
  if s.flattenArray.length = s.index then
    match s.source with
    | [] => (.done, s)
    | a :: rest =>
      let fa := s.flattenArray ++ a
      (.yield fa[s.index]?,
        { index := s.index + 1, flattenArray := fa, source := rest })
  else
    (.yield s.flattenArray[s.index]?, { s with index := s.index + 1 })

/-- Drive the flattened iterator until it reports done, collecting the
yielded values; none when the fuel runs out first. -/
def flattenToList {α : Type} (s : FlattenState α) : Nat → Option (List (Option α))
  | 0 => none
  | fuel + 1 =>
    match flattenNext s with
    | (.done, _) => some []
    | (.yield v, s') => (flattenToList s' fuel).map (v :: ·)

/-! ## Definitions: getBlobAsText (src/utils/azure_storage.ts, lines 157-185) -/

/-- The BlobNotFound error code (azure_storage.ts line 18). -/
def BlobNotFoundCode : String := "BlobNotFound"

/-- The outcome reported by the storage callback of getBlobToText: an error
carrying an optional code, or a success carrying an optional text (the
service may return a null result). -/
inductive BlobCallback where
  | err (code : Option String)
  | succ (result : Option String)
deriving DecidableEq, Repr

/-- The result classification performed by getBlobAsText (azure_storage.ts
lines 168-182): an error whose code is BlobNotFound becomes Right(none), any
other error becomes Left of that error (modelled by its code), and a success
becomes Right of the nullable text. -/
def getBlobAsText (cb : BlobCallback) : Except (Option String) (Option String) :=
  match cb with
  | .err code =>
    if code ≠ none ∧ code = some BlobNotFoundCode then .ok none
    else .error code
  | .succ result => .ok result

/-! ## Theorems: the padded version string -/

theorem data_padVersion (v : Nat) :
    (padVersion v).data =
      (List.replicate paddingLength '0' ++ (Nat.repr v).data).drop
        ((Nat.repr v).data.length) := by
  have hdata : (String.mk (List.replicate paddingLength '0') ++ Nat.repr v).data
      = List.replicate paddingLength '0' ++ (Nat.repr v).data := rfl
  have hlen : (String.mk (List.replicate paddingLength '0') ++ Nat.repr v).length
      = paddingLength + (Nat.repr v).data.length := by
    show (String.mk (List.replicate paddingLength '0') ++ Nat.repr v).data.length = _
    rw [hdata, List.length_append, List.length_replicate]
  show ((String.mk (List.replicate paddingLength '0') ++ Nat.repr v).drop _).data = _
  rw [String.data_drop, hdata, hlen, Nat.add_sub_cancel_left]

theorem length_padVersion (v : Nat) : (padVersion v).length = paddingLength := by
  show (padVersion v).data.length = _
  rw [data_padVersion, List.length_drop, List.length_append, List.length_replicate]
  omega

theorem padVersion_zero : padVersion 0 = "0000000000000000" := by decide

/-! ## Theorems: characterising the decimal representation -/

theorem digitsBE_of_lt {n : Nat} (h : n < 10) : digitsBE n = [Nat.digitChar n] := by
  rw [digitsBE, dif_pos h]

theorem digitsBE_of_ge {n : Nat} (h : ¬ n < 10) :
    digitsBE n = digitsBE (n / 10) ++ [Nat.digitChar (n % 10)] := by
  conv_lhs => rw [digitsBE]
  rw [dif_neg h]

theorem toDigitsCore_eq_digitsBE :
    ∀ (fuel n : Nat) (ds : List Char), n < fuel →
      Nat.toDigitsCore 10 fuel n ds = digitsBE n ++ ds := by
  intro fuel
  induction fuel with
  | zero => intro n ds h; omega
  | succ f ih =>
    intro n ds h
    rw [Nat.toDigitsCore]
    by_cases h10 : n < 10
    · have hdiv : n / 10 = 0 := Nat.div_eq_of_lt h10
      rw [if_pos hdiv, digitsBE_of_lt h10, Nat.mod_eq_of_lt h10]
      rfl
    · have hdiv : ¬ n / 10 = 0 := by
        intro hc
        have := Nat.div_eq_of_lt (show n < 10 by
          have := (Nat.div_eq_zero_iff (by omega : 0 < 10)).mp hc
          omega)
        omega
      rw [if_neg hdiv]
      have hlt : n / 10 < f := by
        have h1 : n / 10 < n := Nat.div_lt_self (by omega) (by omega)
        omega
      rw [ih (n / 10) _ hlt, digitsBE_of_ge h10, List.append_assoc]
      rfl

theorem repr_data_eq_digitsBE (n : Nat) : (Nat.repr n).data = digitsBE n := by
  show (Nat.toDigits 10 n).asString.data = digitsBE n
  rw [Nat.toDigits, toDigitsCore_eq_digitsBE (n + 1) n [] (Nat.lt_succ_self n)]
  simp [List.asString]

theorem charVal_digitChar : ∀ d, d < 10 → charVal (Nat.digitChar d) = d := by decide

theorem digitChar_lt_digitChar :
    ∀ d₁, d₁ < 10 → ∀ d₂, d₂ < 10 → d₁ < d₂ → Nat.digitChar d₁ < Nat.digitChar d₂ := by
  decide

theorem digitChar_inj :
    ∀ d₁, d₁ < 10 → ∀ d₂, d₂ < 10 → Nat.digitChar d₁ = Nat.digitChar d₂ → d₁ = d₂ := by
  decide

theorem digitsBE_digits (n : Nat) : ∀ c ∈ digitsBE n, IsDecDigit c := by
  induction n using Nat.strong_induction_on with
  | _ n ih =>
    by_cases h10 : n < 10
    · rw [digitsBE_of_lt h10]
      intro c hc
      rw [List.mem_singleton] at hc
      exact ⟨n, h10, hc⟩
    · rw [digitsBE_of_ge h10]
      intro c hc
      rcases List.mem_append.mp hc with h | h
      · exact ih (n / 10) (Nat.div_lt_self (by omega) (by omega)) c h
      · rw [List.mem_singleton] at h
        exact ⟨n % 10, Nat.mod_lt _ (by omega), h⟩

theorem charsToNat_append_singleton (l : List Char) (c : Char) :
    charsToNat (l ++ [c]) = 10 * charsToNat l + charVal c := by
  induction l with
  | nil => simp [charsToNat]
  | cons d t ih =>
    simp only [List.cons_append, List.append_eq, charsToNat, ih, List.length_append,
      List.length_singleton, pow_succ]
    ring

theorem charsToNat_digitsBE (n : Nat) : charsToNat (digitsBE n) = n := by
  induction n using Nat.strong_induction_on with
  | _ n ih =>
    by_cases h10 : n < 10
    · rw [digitsBE_of_lt h10]
      simp [charsToNat, charVal_digitChar n h10]
    · rw [digitsBE_of_ge h10, charsToNat_append_singleton,
        ih (n / 10) (Nat.div_lt_self (by omega) (by omega)),
        charVal_digitChar (n % 10) (Nat.mod_lt _ (by omega))]
      omega

theorem charsToNat_lt (l : List Char) (h : ∀ c ∈ l, IsDecDigit c) :
    charsToNat l < 10 ^ l.length := by
  induction l with
  | nil => simp [charsToNat]
  | cons c t ih =>
    obtain ⟨d, hd, hcd⟩ := h c (List.mem_cons_self _ _)
    have hcv : charVal c ≤ 9 := by rw [hcd, charVal_digitChar d hd]; omega
    have ht : charsToNat t < 10 ^ t.length := ih (fun x hx => h x (List.mem_cons_of_mem _ hx))
    simp only [charsToNat, List.length_cons, pow_succ]
    calc charVal c * 10 ^ t.length + charsToNat t
        ≤ 9 * 10 ^ t.length + charsToNat t := by
          exact Nat.add_le_add_right (Nat.mul_le_mul_right _ hcv) _
      _ < 9 * 10 ^ t.length + 10 ^ t.length := by omega
      _ = 10 ^ t.length * 10 := by ring

theorem charsToNat_replicate_zero_append (z : Nat) (l : List Char) :
    charsToNat (List.replicate z '0' ++ l) = charsToNat l := by
  induction z with
  | zero => simp
  | succ k ih =>
    rw [List.replicate_succ, List.cons_append]
    show charVal '0' * _ + _ = _
    rw [ih]
    norm_num [charVal]

/-- Lexicographic order on equal-length decimal digit strings agrees with
the numeric order of their values. -/
theorem lex_lt_of_charsToNat_lt :
    ∀ (l₁ l₂ : List Char), l₁.length = l₂.length →
      (∀ c ∈ l₁, IsDecDigit c) → (∀ c ∈ l₂, IsDecDigit c) →
      charsToNat l₁ < charsToNat l₂ → List.lt l₁ l₂ := by
  intro l₁
  induction l₁ with
  | nil =>
    intro l₂ hlen _ _ hval
    cases l₂ with
    | nil => simp [charsToNat] at hval
    | cons c t => exact absurd hlen (by simp)
  | cons c₁ t₁ ih =>
    intro l₂ hlen h₁ h₂ hval
    cases l₂ with
    | nil => exact absurd hlen (by simp)
    | cons c₂ t₂ =>
      obtain ⟨d₁, hd₁, hc₁⟩ := h₁ c₁ (List.mem_cons_self _ _)
      obtain ⟨d₂, hd₂, hc₂⟩ := h₂ c₂ (List.mem_cons_self _ _)
      have htlen : t₁.length = t₂.length := by simpa using hlen
      have ht₁ : charsToNat t₁ < 10 ^ t₁.length :=
        charsToNat_lt t₁ (fun x hx => h₁ x (List.mem_cons_of_mem _ hx))
      have ht₂ : charsToNat t₂ < 10 ^ t₂.length :=
        charsToNat_lt t₂ (fun x hx => h₂ x (List.mem_cons_of_mem _ hx))
      simp only [charsToNat] at hval
      rcases Nat.lt_trichotomy d₁ d₂ with hlt | heq | hgt
      · exact List.lt.head _ _ (by rw [hc₁, hc₂]; exact digitChar_lt_digitChar _ hd₁ _ hd₂ hlt)
      · have hcc : c₁ = c₂ := by rw [hc₁, hc₂, heq]
        have hvv : charVal c₁ = charVal c₂ := by rw [hcc]
        have htv : charsToNat t₁ < charsToNat t₂ := by
          rw [hvv, htlen] at hval
          omega
        exact List.lt.tail (by rw [hcc]; exact lt_irrefl c₂) (by rw [hcc]; exact lt_irrefl c₂)
          (ih t₂ htlen (fun x hx => h₁ x (List.mem_cons_of_mem _ hx))
            (fun x hx => h₂ x (List.mem_cons_of_mem _ hx)) htv)
      · exfalso
        have hv₁ : charVal c₁ = d₁ := by rw [hc₁, charVal_digitChar d₁ hd₁]
        have hv₂ : charVal c₂ = d₂ := by rw [hc₂, charVal_digitChar d₂ hd₂]
        rw [hv₁, hv₂, htlen] at hval
        rw [htlen] at ht₁
        have hsum : d₂ * 10 ^ t₂.length + 10 ^ t₂.length ≤ d₁ * 10 ^ t₂.length := by
          have h1 : (d₂ + 1) * 10 ^ t₂.length ≤ d₁ * 10 ^ t₂.length :=
            Nat.mul_le_mul_right _ (by omega)
          rw [Nat.add_mul, one_mul] at h1
          exact h1
        omega

/-! ## Theorems: the zero-padded id and its ordering -/

theorem length_digitsBE_le {v k : Nat} (hk : 0 < k) (hv : v < 10 ^ k) :
    (digitsBE v).length ≤ k := by
  have h := Nat.repr_length v k hk hv
  have hd : (Nat.repr v).length = (digitsBE v).length := by
    show (Nat.repr v).data.length = _
    rw [repr_data_eq_digitsBE]
  omega

theorem data_padVersion_of_lt {v : Nat} (hv : v < 10 ^ paddingLength) :
    (padVersion v).data =
      List.replicate (paddingLength - (digitsBE v).length) '0' ++ digitsBE v := by
  have hlen : (digitsBE v).length ≤ paddingLength :=
    length_digitsBE_le (by norm_num [paddingLength]) hv
  rw [data_padVersion, repr_data_eq_digitsBE,
    List.drop_append_of_le_length (by simpa using hlen)]
  congr 1
  have : ∀ (m n : Nat), (List.replicate m '0').drop n = List.replicate (m - n) '0' := by
    intro m
    induction m with
    | zero => intro n; simp
    | succ k ih =>
      intro n
      cases n with
      | zero => simp
      | succ j =>
        rw [List.replicate_succ, List.drop_succ_cons, ih j, Nat.succ_sub_succ]
  exact this _ _

theorem padVersion_digits {v : Nat} (hv : v < 10 ^ paddingLength) :
    ∀ c ∈ (padVersion v).data, IsDecDigit c := by
  rw [data_padVersion_of_lt hv]
  intro c hc
  rcases List.mem_append.mp hc with h | h
  · rw [List.eq_of_mem_replicate h]
    exact ⟨0, by omega, rfl⟩
  · exact digitsBE_digits v c h

theorem charsToNat_padVersion {v : Nat} (hv : v < 10 ^ paddingLength) :
    charsToNat (padVersion v).data = v := by
  rw [data_padVersion_of_lt hv, charsToNat_replicate_zero_append, charsToNat_digitsBE]

theorem data_length_padVersion (v : Nat) : (padVersion v).data.length = paddingLength :=
  length_padVersion v

/-- Lexicographic comparison of the padded versions agrees with numeric
comparison below 10 ^ 16. -/
theorem padVersion_lt {v₁ v₂ : Nat} (h12 : v₁ < v₂) (h2 : v₂ < 10 ^ paddingLength) :
    List.lt (padVersion v₁).data (padVersion v₂).data := by
  have h1 : v₁ < 10 ^ paddingLength := lt_trans h12 h2
  apply lex_lt_of_charsToNat_lt
  · rw [data_length_padVersion, data_length_padVersion]
  · exact padVersion_digits h1
  · exact padVersion_digits h2
  · rw [charsToNat_padVersion h1, charsToNat_padVersion h2]
    exact h12

theorem padVersion_inj {v w : Nat} (hv : v < 10 ^ paddingLength)
    (hw : w < 10 ^ paddingLength) (h : padVersion v = padVersion w) : v = w := by
  have := charsToNat_padVersion hv
  rw [h, charsToNat_padVersion hw] at this
  omega

theorem string_lt_iff_data_lt (s t : String) : s < t ↔ List.lt s.data t.data := by
  rw [String.lt_iff_toList_lt]
  exact (List.lt_iff_lex_lt s.data t.data).symm

theorem list_lt_append_left (l : List Char) {t₁ t₂ : List Char} (h : List.lt t₁ t₂) :
    List.lt (l ++ t₁) (l ++ t₂) := by
  induction l with
  | nil => exact h
  | cons c cs ih => exact List.lt.tail (lt_irrefl c) (lt_irrefl c) ih

theorem data_generateVersionedModelId (modelId : Value) (v : Nat) :
    (generateVersionedModelId modelId v).data =
      ((valueToString modelId).data ++ ['-']) ++ (padVersion v).data := by
  show ((valueToString modelId ++ "-" ++ padVersion v)).data = _
  rw [String.data_append, String.data_append]

/-- The composite id determines the (string) model id and the padded
version: two equal ids must come from the same model id and from versions
with the same padding. -/
theorem generateVersionedModelId_inj {a b : String} {v w : Nat}
    (h : generateVersionedModelId (.vstr a) v = generateVersionedModelId (.vstr b) w) :
    a = b ∧ padVersion v = padVersion w := by
  have hdata := congrArg String.data h
  rw [data_generateVersionedModelId, data_generateVersionedModelId] at hdata
  have hlen : (padVersion v).data.length = (padVersion w).data.length := by
    rw [data_length_padVersion, data_length_padVersion]
  obtain ⟨h₁, h₂⟩ := List.append_inj' hdata hlen
  have hab : a.data = b.data := (List.append_inj' h₁ rfl).1
  exact ⟨String.ext hab, String.ext h₂⟩

/-! ## Theorems: field lookup over document construction -/

theorem find?_removeField (d : Document) (k : String) :
    (removeField d k).find? (fun p => p.1 == k) = none := by
  rw [List.find?_eq_none]
  intro x hx
  have hmem := List.mem_filter.mp hx
  simp only [bne_iff_ne, ne_eq] at hmem
  simp [hmem.2]

theorem lookupField_setField_self (d : Document) (k : String) (v : Value) :
    lookupField (setField d k v) k = some v := by
  unfold lookupField setField
  rw [List.find?_append, find?_removeField]
  simp

theorem find?_filter_key_preserved {p : String × Value → Bool} (d : Document) (k : String)
    (h : ∀ x : String × Value, x.1 = k → p x = true) :
    (d.filter p).find? (fun x => x.1 == k) = d.find? (fun x => x.1 == k) := by
  induction d with
  | nil => rfl
  | cons a t ih =>
    by_cases hk : a.1 = k
    · have hbeq : (a.1 == k) = true := by simp [hk]
      rw [List.filter_cons_of_pos (h a hk), List.find?_cons, List.find?_cons, hbeq]
    · have hbeq : (a.1 == k) = false := by simp [hk]
      cases hp : p a
      · rw [List.filter_cons_of_neg (by simp [hp]), ih, List.find?_cons, hbeq]
      · rw [List.filter_cons_of_pos hp, List.find?_cons, List.find?_cons, hbeq, ih]

theorem lookupField_removeField_of_ne (d : Document) {k k' : String} (h : k' ≠ k) :
    lookupField (removeField d k) k' = lookupField d k' := by
  unfold lookupField removeField
  rw [find?_filter_key_preserved]
  intro x hx
  simp [hx, h]

theorem lookupField_setField_of_ne (d : Document) {k k' : String} (h : k' ≠ k) (v : Value) :
    lookupField (setField d k v) k' = lookupField d k' := by
  unfold setField
  show ((removeField d k ++ [(k, v)]).find? (fun p => p.1 == k')).map Prod.snd = _
  rw [List.find?_append]
  have hsingle : (([(k, v)] : Document).find? (fun p => p.1 == k')) = none := by
    simp [Ne.symm h]
  rw [hsingle, Option.or_none]
  exact lookupField_removeField_of_ne d h

theorem lookupField_toBaseType_of_not_meta (o : Document) {k : String}
    (h : ¬ k ∈ metaKeys) : lookupField (toBaseType o) k = lookupField o k := by
  unfold lookupField toBaseType
  rw [find?_filter_key_preserved]
  intro x hx
  rw [hx]
  simpa using h

theorem lookupField_toBaseType_of_meta (o : Document) {k : String}
    (h : k ∈ metaKeys) : lookupField (toBaseType o) k = none := by
  unfold lookupField toBaseType
  rw [List.find?_eq_none.mpr]
  · rfl
  · intro x hx
    have hmem := List.mem_filter.mp hx
    have hk : (metaKeys.contains x.1) = false := by
      simpa using hmem.2
    intro hc
    rw [beq_iff_eq] at hc
    rw [hc] at hk
    simp [h] at hk

/-! ## Theorems: the written document and the base-store create -/

theorem lookupField_newVersionDoc_version (o : Document) (mid : String) (n : Nat) :
    lookupField (newVersionDoc o mid n) "version" = some (.vnum n) :=
  lookupField_setField_self _ _ _

theorem lookupField_newVersionDoc_id (o : Document) (mid : String) (n : Nat) :
    lookupField (newVersionDoc o mid n) "id"
      = some (.vstr (generateVersionedModelId (.vstr mid) n)) := by
  unfold newVersionDoc
  rw [lookupField_setField_of_ne _ (by decide), lookupField_setField_self]

theorem lookupField_newVersionDoc_of_ne (o : Document) (mid : String) (n : Nat)
    {k : String} (h1 : k ≠ "id") (h2 : k ≠ "version") :
    lookupField (newVersionDoc o mid n) k = lookupField o k := by
  unfold newVersionDoc
  rw [lookupField_setField_of_ne _ h2, lookupField_setField_of_ne _ h1]

theorem createNewVersion_eq {m : VersionedModel} (s : Store) {o : Document} {mid : String}
    (n : Nat) (hmid : lookupField o m.modelIdKey = some (.vstr mid)) :
    createNewVersion m s o n = baseCreate s (newVersionDoc o mid n) := by
  unfold createNewVersion getModelId newVersionDoc
  rw [hmid]
  rfl

theorem baseCreate_conflict {s : Store} {newDoc : Document}
    (h : ∃ d ∈ s, lookupField d "id" = lookupField newDoc "id") :
    baseCreate s newDoc = (s, .error .conflict) := by
  unfold baseCreate
  rw [if_pos]
  rw [List.any_eq_true]
  obtain ⟨d, hd, he⟩ := h
  exact ⟨d, hd, by simp [he]⟩

theorem baseCreate_success {s : Store} {newDoc : Document}
    (h : ∀ d ∈ s, lookupField d "id" ≠ lookupField newDoc "id") :
    baseCreate s newDoc = (s ++ [newDoc], .ok newDoc) := by
  unfold baseCreate
  rw [if_neg]
  rw [List.any_eq_true]
  rintro ⟨d, hd, he⟩
  exact h d hd (by simpa using he)

theorem id_free_of_no_model_docs {m : VersionedModel} {s : Store} {mid : String}
    (hwf : WellFormedStore m s)
    (hno : ∀ d ∈ s, lookupField d m.modelIdKey ≠ some (.vstr mid)) (v : Nat) :
    ∀ d ∈ s, lookupField d "id" ≠ some (.vstr (generateVersionedModelId (.vstr mid) v)) := by
  intro d hd hc
  obtain ⟨mid', v', hm, _, hid⟩ := hwf d hd
  rw [hid] at hc
  have heq : generateVersionedModelId (.vstr mid') v'
      = generateVersionedModelId (.vstr mid) v := by
    have := Option.some.inj hc
    exact Value.vstr.inj this
  have hmm := (generateVersionedModelId_inj heq).1
  exact hno d hd (by rw [hm, hmm])

/-! ## Theorems: executing the find-last-version query -/

theorem findLastVersionByModelId_none {m : VersionedModel} {s : Store} {mid : Value}
    (pk : Option Value) (hno : ∀ d ∈ s, lookupField d m.modelIdKey ≠ some mid) :
    findLastVersionByModelId m s mid pk = none := by
  unfold findLastVersionByModelId runFindQuery mkFindLastVersionQuery
  have hfil : s.filter (fun d => lookupField d m.modelIdKey == some mid) = [] := by
    rw [List.filter_eq_nil_iff]
    intro d hd
    simpa using hno d hd
  rw [hfil]
  rfl

theorem findLastVersionByModelId_max {m : VersionedModel} {s : Store} {mid : Value}
    (pk : Option Value) {n : Nat}
    (hmax : ∀ d ∈ s, lookupField d m.modelIdKey = some mid → getVersion d ≤ n)
    (hex : ∃ d ∈ s, lookupField d m.modelIdKey = some mid ∧ getVersion d = n) :
    ∃ r, findLastVersionByModelId m s mid pk = some r ∧
      lookupField r m.modelIdKey = some mid ∧ getVersion r = n := by
  unfold findLastVersionByModelId runFindQuery mkFindLastVersionQuery
  have hperm : List.Perm
      (List.insertionSort versionGE
        (s.filter (fun d => lookupField d m.modelIdKey == some mid)))
      (s.filter (fun d => lookupField d m.modelIdKey == some mid)) :=
    List.perm_insertionSort _ _
  have hsorted : List.Sorted versionGE
      (List.insertionSort versionGE
        (s.filter (fun d => lookupField d m.modelIdKey == some mid))) :=
    List.sorted_insertionSort _ _
  obtain ⟨d0, hd0s, hd0m, hd0v⟩ := hex
  have hd0l : d0 ∈ s.filter (fun d => lookupField d m.modelIdKey == some mid) :=
    List.mem_filter.mpr ⟨hd0s, by simp [hd0m]⟩
  have hd0sorted : d0 ∈ List.insertionSort versionGE
      (s.filter (fun d => lookupField d m.modelIdKey == some mid)) :=
    hperm.mem_iff.mpr hd0l
  cases hcons : List.insertionSort versionGE
      (s.filter (fun d => lookupField d m.modelIdKey == some mid)) with
  | nil => rw [hcons] at hd0sorted; cases hd0sorted
  | cons h t =>
    have hhl : h ∈ s.filter (fun d => lookupField d m.modelIdKey == some mid) :=
      hperm.mem_iff.mp (hcons ▸ List.mem_cons_self h t)
    have hhs : h ∈ s := (List.mem_filter.mp hhl).1
    have hhm : lookupField h m.modelIdKey = some mid := by
      simpa using (List.mem_filter.mp hhl).2
    refine ⟨h, rfl, hhm, ?_⟩
    · have hle : getVersion h ≤ n := hmax h hhs hhm
      have hge : n ≤ getVersion h := by
        rw [hcons] at hd0sorted
        rcases List.mem_cons.mp hd0sorted with he | ht
        · rw [he] at hd0v
          omega
        · have hrel : versionGE h d0 :=
            (List.sorted_cons.mp (hcons ▸ hsorted)).1 d0 ht
          unfold versionGE at hrel
          omega
      omega

theorem generateVersionedModelId_ne {mid : String} {v w : Nat}
    (hv : v < 10 ^ paddingLength) (hw : w < 10 ^ paddingLength) (hne : v ≠ w) :
    generateVersionedModelId (.vstr mid) v ≠ generateVersionedModelId (.vstr mid) w :=
  fun h => hne (padVersion_inj hv hw (generateVersionedModelId_inj h).2)

theorem getSearchKey_fst {m : VersionedModel} {o : Document} {mid : String}
    (hmid : lookupField o m.modelIdKey = some (.vstr mid)) :
    (getSearchKey m o).1 = .vstr mid := by
  unfold getSearchKey getModelId
  cases m.partitionKey <;> simp [hmid]

theorem getNextVersion_of_max {m : VersionedModel} {s : Store} {o : Document}
    {mid : String} {n : Nat}
    (hmid : lookupField o m.modelIdKey = some (.vstr mid))
    (hmax : ∀ d ∈ s, lookupField d m.modelIdKey = some (.vstr mid) → getVersion d ≤ n)
    (hex : ∃ d ∈ s, lookupField d m.modelIdKey = some (.vstr mid) ∧ getVersion d = n) :
    getNextVersion m s (getSearchKey m o) = n + 1 := by
  obtain ⟨r, hr, _, hv⟩ := findLastVersionByModelId_max (getSearchKey m o).2 hmax hex
  unfold getNextVersion
  rw [getSearchKey_fst hmid, hr]
  show incVersion (getVersion r) = n + 1
  unfold incVersion
  rw [hv]

theorem getNextVersion_of_none {m : VersionedModel} {s : Store} {o : Document}
    {mid : String}
    (hmid : lookupField o m.modelIdKey = some (.vstr mid))
    (hno : ∀ d ∈ s, lookupField d m.modelIdKey ≠ some (.vstr mid)) :
    getNextVersion m s (getSearchKey m o) = 0 := by
  unfold getNextVersion
  rw [getSearchKey_fst hmid, findLastVersionByModelId_none _ hno]

theorem getVersion_newVersionDoc (o : Document) (mid : String) (n : Nat) :
    getVersion (newVersionDoc o mid n) = n := by
  unfold getVersion
  rw [lookupField_newVersionDoc_version]

theorem lookupField_newVersionDoc_modelIdKey {m : VersionedModel} (o : Document)
    (mid : String) (n : Nat) (hkm : ¬ m.modelIdKey ∈ metaKeys)
    (hmid : lookupField o m.modelIdKey = some (.vstr mid)) :
    lookupField (newVersionDoc o mid n) m.modelIdKey = some (.vstr mid) := by
  have hkid : m.modelIdKey ≠ "id" := by
    intro hc
    rw [hc] at hkm
    exact hkm (by decide)
  have hkver : m.modelIdKey ≠ "version" := by
    intro hc
    rw [hc] at hkm
    exact hkm (by decide)
  rw [lookupField_newVersionDoc_of_ne _ _ _ hkid hkver]
  exact hmid

/-! ## The claims -/

/-- C1: for every new entity o, regardless of any version field o may carry,
create(o) attempts exactly version 0: when no document exists for the model
id of o, it succeeds and returns a retrieved document with version 0 and id
equal to the model id followed by a dash and sixteen zero characters. -/
theorem create_fresh (m : VersionedModel) (s : Store) (o : Document) (mid : String)
    (hwf : WellFormedStore m s)
    (hmid : lookupField o m.modelIdKey = some (.vstr mid))
    (hno : ∀ d ∈ s, lookupField d m.modelIdKey ≠ some (.vstr mid)) :
    ∃ r, create m s o = (s ++ [r], .ok r) ∧
      lookupField r "version" = some (.vnum 0) ∧
      lookupField r "id" = some (.vstr (mid ++ "-" ++ "0000000000000000")) := by
  have hfree := id_free_of_no_model_docs hwf hno 0
  have hid : generateVersionedModelId (.vstr mid) 0 = mid ++ "-" ++ "0000000000000000" := by
    unfold generateVersionedModelId valueToString
    rw [padVersion_zero]
  refine ⟨newVersionDoc o mid 0, ?_, lookupField_newVersionDoc_version o mid 0, ?_⟩
  · unfold create
    rw [createNewVersion_eq s 0 hmid]
    apply baseCreate_success
    intro d hd
    rw [lookupField_newVersionDoc_id]
    exact hfree d hd
  · rw [lookupField_newVersionDoc_id, hid]

/-- Witness for C1: a fresh create on an empty store, for an entity that
even carries a stray version field, yields version 0 and the all-zero id. -/
theorem create_fresh_witness :
    ∃ r, create ⟨"pk", none⟩ []
          [("pk", .vstr "abc"), ("email", .vstr "a@x.com"), ("version", .vnum 7)]
        = ([] ++ [r], .ok r) ∧
      lookupField r "version" = some (.vnum 0) ∧
      lookupField r "id" = some (.vstr ("abc" ++ "-" ++ "0000000000000000")) :=
  create_fresh ⟨"pk", none⟩ []
    [("pk", .vstr "abc"), ("email", .vstr "a@x.com"), ("version", .vnum 7)] "abc"
    (fun d hd => absurd hd (List.not_mem_nil d))
    (by decide)
    (fun d hd => absurd hd (List.not_mem_nil d))

/-- C6: for every model id and versions v₁ < v₂ both below 10 ^ 16, the
composite id for v₁ is strictly below the composite id for v₂ in the
lexicographic string order. -/
theorem generateVersionedModelId_strictMono (modelId : Value) {v₁ v₂ : Nat}
    (h12 : v₁ < v₂) (h2 : v₂ < 10 ^ 16) :
    generateVersionedModelId modelId v₁ < generateVersionedModelId modelId v₂ := by
  rw [string_lt_iff_data_lt, data_generateVersionedModelId, data_generateVersionedModelId]
  exact list_lt_append_left _ (padVersion_lt h12 h2)

/-- Witness for C6: the id at version 0 precedes the id at version 1. -/
theorem generateVersionedModelId_strictMono_witness :
    generateVersionedModelId (.vstr "abc") 0 < generateVersionedModelId (.vstr "abc") 1 :=
  generateVersionedModelId_strictMono (.vstr "abc") (by norm_num) (by norm_num)

/-- C7: once the version reaches 10 ^ 16 its decimal representation exceeds
the 16-character padding width and the scheme truncates it: there are
versions v₁ < v₂ with v₂ ≥ 10 ^ 16 whose generated ids collide (the id
keeps only the last sixteen decimal digits). -/
theorem generateVersionedModelId_truncates (modelId : Value) :
    ∃ v₁ v₂ : Nat, v₁ < v₂ ∧ 10 ^ 16 ≤ v₂ ∧
      generateVersionedModelId modelId v₁ = generateVersionedModelId modelId v₂ := by
  refine ⟨0, 10 ^ 16, by norm_num, le_refl _, ?_⟩
  unfold generateVersionedModelId
  have h : padVersion 0 = padVersion (10 ^ 16) := by decide
  rw [h]

/-- C8: the document written by update carries exactly the entity fields of
the input with the six store-metadata and identity fields removed and id and
version recomputed: update delegates to the base create on a document whose
id is the composite id at version k + 1, whose version is k + 1, whose
every non-meta field equals the corresponding field of the input, and whose
four pure-metadata fields are absent. -/
theorem update_writes_exactly_base_fields (m : VersionedModel) (s : Store) (o : Document)
    (mid : String) (k : Nat)
    (hkm : ¬ m.modelIdKey ∈ metaKeys)
    (hmid : lookupField o m.modelIdKey = some (.vstr mid))
    (hver : lookupField o "version" = some (.vnum k)) :
    ∃ written, update m s o = baseCreate s written ∧
      lookupField written "id"
        = some (.vstr (generateVersionedModelId (.vstr mid) (k + 1))) ∧
      lookupField written "version" = some (.vnum (k + 1)) ∧
      (∀ f, ¬ f ∈ metaKeys → lookupField written f = lookupField o f) ∧
      (∀ f ∈ (["_etag", "_rid", "_self", "_ts"] : List String),
        lookupField written f = none) := by
  have hbase : lookupField (toBaseType o) m.modelIdKey = some (.vstr mid) := by
    rw [lookupField_toBaseType_of_not_meta o hkm]
    exact hmid
  have hgv : getVersion o = k := by
    unfold getVersion
    rw [hver]
  refine ⟨newVersionDoc (toBaseType o) mid (k + 1), ?_,
    lookupField_newVersionDoc_id _ _ _, lookupField_newVersionDoc_version _ _ _, ?_, ?_⟩
  · unfold update incVersion
    rw [hgv, createNewVersion_eq s (k + 1) hbase]
  · intro f hf
    have h1 : f ≠ "id" := by
      intro hc
      rw [hc] at hf
      exact hf (by decide)
    have h2 : f ≠ "version" := by
      intro hc
      rw [hc] at hf
      exact hf (by decide)
    rw [lookupField_newVersionDoc_of_ne _ _ _ h1 h2, lookupField_toBaseType_of_not_meta o hf]
  · intro f hf
    have hmeta : f ≠ "id" ∧ f ≠ "version" ∧ f ∈ metaKeys := by
      fin_cases hf <;> exact ⟨by decide, by decide, by decide⟩
    rw [lookupField_newVersionDoc_of_ne _ _ _ hmeta.1 hmeta.2.1,
      lookupField_toBaseType_of_meta o hmeta.2.2]

/-- Witness for C8: a concrete retrieved document at version 3 with an
entity field, a model-id field and all four metadata fields. -/
theorem update_writes_exactly_base_fields_witness :
    ∃ written,
      update ⟨"pk", none⟩ []
          [("pk", .vstr "abc"), ("email", .vstr "a@x.com"), ("version", .vnum 3),
           ("id", .vstr "abc-0000000000000003"), ("_etag", .vstr "e"),
           ("_rid", .vstr "r"), ("_self", .vstr "s"), ("_ts", .vnum 99)]
        = baseCreate [] written ∧
      lookupField written "id"
        = some (.vstr (generateVersionedModelId (.vstr "abc") (3 + 1))) ∧
      lookupField written "version" = some (.vnum (3 + 1)) ∧
      (∀ f, ¬ f ∈ metaKeys →
        lookupField written f
          = lookupField
              [("pk", .vstr "abc"), ("email", .vstr "a@x.com"), ("version", .vnum 3),
               ("id", .vstr "abc-0000000000000003"), ("_etag", .vstr "e"),
               ("_rid", .vstr "r"), ("_self", .vstr "s"), ("_ts", .vnum 99)] f) ∧
      (∀ f ∈ (["_etag", "_rid", "_self", "_ts"] : List String),
        lookupField written f = none) :=
  update_writes_exactly_base_fields ⟨"pk", none⟩ []
    [("pk", .vstr "abc"), ("email", .vstr "a@x.com"), ("version", .vnum 3),
     ("id", .vstr "abc-0000000000000003"), ("_etag", .vstr "e"),
     ("_rid", .vstr "r"), ("_self", .vstr "s"), ("_ts", .vnum 99)]
    "abc" 3 (by decide) (by decide) (by decide)

/-- C10: getBlobAsText resolves to Right(none) exactly when the callback
reports an error with code BlobNotFound or a success with a null body; any
other error resolves to Left of that error, and a successful read with a
body resolves to Right(some text). -/
theorem getBlobAsText_classification :
    (∀ cb, getBlobAsText cb = .ok none ↔
        cb = .err (some BlobNotFoundCode) ∨ cb = .succ none) ∧
    (∀ code, code ≠ some BlobNotFoundCode → getBlobAsText (.err code) = .error code) ∧
    (∀ text, getBlobAsText (.succ (some text)) = .ok (some text)) ∧
    getBlobAsText (.succ none) = .ok none := by
  refine ⟨?_, ?_, fun text => rfl, rfl⟩
  · intro cb
    cases cb with
    | err code =>
      cases code with
      | none => simp [getBlobAsText]
      | some c =>
        by_cases hc : c = BlobNotFoundCode
        · subst hc
          simp [getBlobAsText]
        · simp [getBlobAsText, hc]
    | succ r =>
      cases r with
      | none => simp [getBlobAsText]
      | some t => simp [getBlobAsText]
  · intro code hcode
    cases code with
    | none => rfl
    | some c =>
      have hc : c ≠ BlobNotFoundCode := fun h => hcode (by rw [h])
      simp [getBlobAsText, hc]

/-- Witness for C10: an error with a different code is passed through as
Left. -/
theorem getBlobAsText_classification_witness :
    (some "ServerBusy" : Option String) ≠ some BlobNotFoundCode ∧
    getBlobAsText (.err (some "ServerBusy")) = .error (some "ServerBusy") :=
  ⟨by decide, getBlobAsText_classification.2.1 (some "ServerBusy") (by decide)⟩

/-- C2: for every retrieved document o carrying version k, update(o)
attempts version k + 1: it delegates to createNewVersion at k + 1, and on
success the store gains one document whose version is k + 1, whose model id
is unchanged and whose id is the composite id at k + 1, while every
pre-existing document (in particular the one at version k) is left in the
store unchanged; on failure the store is unchanged. -/
theorem update_creates_next_version (m : VersionedModel) (s : Store) (o : Document)
    (mid : String) (k : Nat)
    (hkm : ¬ m.modelIdKey ∈ metaKeys)
    (hmid : lookupField o m.modelIdKey = some (.vstr mid))
    (hver : lookupField o "version" = some (.vnum k)) :
    update m s o = createNewVersion m s (toBaseType o) (k + 1) ∧
    (∀ s' r, update m s o = (s', .ok r) →
      s' = s ++ [r] ∧
      lookupField r "version" = some (.vnum (k + 1)) ∧
      lookupField r m.modelIdKey = some (.vstr mid) ∧
      lookupField r "id"
        = some (.vstr (generateVersionedModelId (.vstr mid) (k + 1)))) ∧
    (∀ s' e, update m s o = (s', .error e) → s' = s) := by
  have hkid : m.modelIdKey ≠ "id" := by
    intro hc
    rw [hc] at hkm
    exact hkm (by decide)
  have hkver : m.modelIdKey ≠ "version" := by
    intro hc
    rw [hc] at hkm
    exact hkm (by decide)
  have hbase : lookupField (toBaseType o) m.modelIdKey = some (.vstr mid) := by
    rw [lookupField_toBaseType_of_not_meta o hkm]
    exact hmid
  have hgv : getVersion o = k := by
    unfold getVersion
    rw [hver]
  have h1 : update m s o = createNewVersion m s (toBaseType o) (k + 1) := by
    unfold update incVersion
    rw [hgv]
  have heq : update m s o = baseCreate s (newVersionDoc (toBaseType o) mid (k + 1)) := by
    rw [h1, createNewVersion_eq s (k + 1) hbase]
  refine ⟨h1, ?_, ?_⟩
  · intro s' r hok
    rw [heq] at hok
    unfold baseCreate at hok
    split at hok
    · exact absurd (congrArg Prod.snd hok) (by simp)
    · injection hok with hs hr
      injection hr with hr
      subst hr
      refine ⟨hs.symm, lookupField_newVersionDoc_version _ _ _, ?_,
        lookupField_newVersionDoc_id _ _ _⟩
      rw [lookupField_newVersionDoc_of_ne _ _ _ hkid hkver]
      exact hbase
  · intro s' e herr
    rw [heq] at herr
    unfold baseCreate at herr
    split at herr
    · exact (congrArg Prod.fst herr).symm
    · exact absurd (congrArg Prod.snd herr) (by simp)

/-- Witness for C2: updating a concrete version-3 document on an empty
store succeeds at version 4 and appends exactly one document. -/
theorem update_creates_next_version_witness :
    update ⟨"pk", none⟩ [] [("pk", .vstr "abc"), ("version", .vnum 3)]
        = createNewVersion ⟨"pk", none⟩ []
            (toBaseType [("pk", .vstr "abc"), ("version", .vnum 3)]) (3 + 1) ∧
    (∀ s' r, update ⟨"pk", none⟩ [] [("pk", .vstr "abc"), ("version", .vnum 3)]
        = (s', .ok r) →
      s' = [] ++ [r] ∧
      lookupField r "version" = some (.vnum (3 + 1)) ∧
      lookupField r "pk" = some (.vstr "abc") ∧
      lookupField r "id"
        = some (.vstr (generateVersionedModelId (.vstr "abc") (3 + 1)))) ∧
    (∀ s' e, update ⟨"pk", none⟩ [] [("pk", .vstr "abc"), ("version", .vnum 3)]
        = (s', .error e) → s' = []) :=
  update_creates_next_version ⟨"pk", none⟩ [] [("pk", .vstr "abc"), ("version", .vnum 3)]
    "abc" 3 (by decide) (by decide) (by decide)

/-- C4: when the targeted composite id is already occupied, each of the
three operations returns CONFLICT and leaves the stored documents
unchanged.  The first conjunct covers the shared write path createNewVersion
at an arbitrary version, which is exactly the write a racing upsert
performs after computing its next version. -/
theorem conflict_on_occupied_id (m : VersionedModel) (s : Store) (o : Document)
    (mid : String) (k : Nat)
    (hkm : ¬ m.modelIdKey ∈ metaKeys)
    (hmid : lookupField o m.modelIdKey = some (.vstr mid))
    (hver : lookupField o "version" = some (.vnum k)) :
    (∀ v : Nat,
      (∃ d ∈ s, lookupField d "id"
          = some (.vstr (generateVersionedModelId (.vstr mid) v))) →
      createNewVersion m s o v = (s, .error .conflict)) ∧
    ((∃ d ∈ s, lookupField d "id"
        = some (.vstr (generateVersionedModelId (.vstr mid) 0))) →
      create m s o = (s, .error .conflict)) ∧
    ((∃ d ∈ s, lookupField d "id"
        = some (.vstr (generateVersionedModelId (.vstr mid) (k + 1)))) →
      update m s o = (s, .error .conflict)) := by
  have hpart : ∀ v : Nat,
      (∃ d ∈ s, lookupField d "id"
          = some (.vstr (generateVersionedModelId (.vstr mid) v))) →
      createNewVersion m s o v = (s, .error .conflict) := by
    intro v hocc
    rw [createNewVersion_eq s v hmid]
    apply baseCreate_conflict
    obtain ⟨d, hd, hid⟩ := hocc
    refine ⟨d, hd, ?_⟩
    rw [lookupField_newVersionDoc_id]
    exact hid
  refine ⟨hpart, hpart 0, ?_⟩
  intro hocc
  have hbase : lookupField (toBaseType o) m.modelIdKey = some (.vstr mid) := by
    rw [lookupField_toBaseType_of_not_meta o hkm]
    exact hmid
  have hgv : getVersion o = k := by
    unfold getVersion
    rw [hver]
  unfold update incVersion
  rw [hgv, createNewVersion_eq s (k + 1) hbase]
  apply baseCreate_conflict
  obtain ⟨d, hd, hid⟩ := hocc
  refine ⟨d, hd, ?_⟩
  rw [lookupField_newVersionDoc_id]
  exact hid

/-- Witness for C4: with the version-0 id occupied, create returns CONFLICT
and leaves the single-document store unchanged. -/
theorem conflict_on_occupied_id_witness :
    (∃ d ∈ ([[("pk", .vstr "abc"), ("version", .vnum 0),
          ("id", .vstr (generateVersionedModelId (.vstr "abc") 0))]] : Store),
        lookupField d "id"
          = some (.vstr (generateVersionedModelId (.vstr "abc") 0))) ∧
    create ⟨"pk", none⟩
        [[("pk", .vstr "abc"), ("version", .vnum 0),
          ("id", .vstr (generateVersionedModelId (.vstr "abc") 0))]]
        [("pk", .vstr "abc"), ("version", .vnum 5)]
      = ([[("pk", .vstr "abc"), ("version", .vnum 0),
          ("id", .vstr (generateVersionedModelId (.vstr "abc") 0))]],
         .error .conflict) := by
  have hocc : ∃ d ∈ ([[("pk", .vstr "abc"), ("version", .vnum 0),
        ("id", .vstr (generateVersionedModelId (.vstr "abc") 0))]] : Store),
      lookupField d "id" = some (.vstr (generateVersionedModelId (.vstr "abc") 0)) := by
    refine ⟨_, List.mem_singleton_self _, ?_⟩
    decide
  exact ⟨hocc,
    (conflict_on_occupied_id ⟨"pk", none⟩ _ [("pk", .vstr "abc"), ("version", .vnum 5)]
      "abc" 5 (by decide) (by decide) (by decide)).2.1 hocc⟩

/-- C5: findLastVersionByModelId issues a single query filtering on the
model-id field, ordered by version descending, limited to one result and
scoped to the given partition key or to the model id when none is given;
executing it on a store whose matching documents have maximum version n
returns the document at version n, and on a store with no matching
documents it returns none. -/
theorem findLastVersionByModelId_spec (m : VersionedModel) (s : Store) (mid : Value)
    (pk : Option Value) (n : Nat) :
    (mkFindLastVersionQuery m mid pk).filterKey = m.modelIdKey ∧
    (mkFindLastVersionQuery m mid pk).filterValue = mid ∧
    (mkFindLastVersionQuery m mid pk).orderByVersionDesc = true ∧
    (mkFindLastVersionQuery m mid pk).maxItemCount = 1 ∧
    (mkFindLastVersionQuery m mid pk).partitionKey = pk.getD mid ∧
    findLastVersionByModelId m s mid pk = runFindQuery s (mkFindLastVersionQuery m mid pk) ∧
    ((∀ d ∈ s, lookupField d m.modelIdKey = some mid → getVersion d ≤ n) →
      (∃ d ∈ s, lookupField d m.modelIdKey = some mid ∧ getVersion d = n) →
      ∃ r, findLastVersionByModelId m s mid pk = some r ∧
        lookupField r m.modelIdKey = some mid ∧ getVersion r = n) ∧
    ((∀ d ∈ s, lookupField d m.modelIdKey ≠ some mid) →
      findLastVersionByModelId m s mid pk = none) :=
  ⟨rfl, rfl, rfl, rfl, rfl, rfl,
    fun hmax hex => findLastVersionByModelId_max pk hmax hex,
    fun hno => findLastVersionByModelId_none pk hno⟩

/-- Witness for C5: on a concrete two-document store holding versions 0 and
1 of model id abc, the query returns the version-1 document. -/
theorem findLastVersionByModelId_spec_witness :
    ∃ r, findLastVersionByModelId ⟨"pk", none⟩
          [[("pk", .vstr "abc"), ("version", .vnum 0), ("id", .vstr "abc-0000000000000000")],
           [("pk", .vstr "abc"), ("version", .vnum 1), ("id", .vstr "abc-0000000000000001")]]
          (.vstr "abc") none
        = some r ∧
      lookupField r "pk" = some (.vstr "abc") ∧ getVersion r = 1 :=
  (findLastVersionByModelId_spec ⟨"pk", none⟩
      [[("pk", .vstr "abc"), ("version", .vnum 0), ("id", .vstr "abc-0000000000000000")],
       [("pk", .vstr "abc"), ("version", .vnum 1), ("id", .vstr "abc-0000000000000001")]]
      (.vstr "abc") none 1).2.2.2.2.2.2.1
    (by decide)
    ⟨[("pk", .vstr "abc"), ("version", .vnum 1), ("id", .vstr "abc-0000000000000001")],
      by decide, by decide, by decide⟩

/-- C3: upsert creates its document at the maximum version currently stored
for the model id plus one, or at version 0 when no document exists; hence on
a store with no documents for the model id, three sequential successful
upsert calls produce versions 0, 1 and 2 in that order. -/
theorem upsert_progression (m : VersionedModel) (s : Store) (o : Document) (mid : String)
    (hwf : WellFormedStore m s)
    (hkm : ¬ m.modelIdKey ∈ metaKeys)
    (hmid : lookupField o m.modelIdKey = some (.vstr mid))
    (hno : ∀ d ∈ s, lookupField d m.modelIdKey ≠ some (.vstr mid)) :
    (∀ (s' : Store) (n : Nat),
      (∀ d ∈ s', lookupField d m.modelIdKey = some (.vstr mid) → getVersion d ≤ n) →
      (∃ d ∈ s', lookupField d m.modelIdKey = some (.vstr mid) ∧ getVersion d = n) →
      upsert m s' o = createNewVersion m s' o (n + 1)) ∧
    upsert m s o = createNewVersion m s o 0 ∧
    ∃ r₀ r₁ r₂,
      upsert m s o = (s ++ [r₀], .ok r₀) ∧
      upsert m (s ++ [r₀]) o = (s ++ [r₀] ++ [r₁], .ok r₁) ∧
      upsert m (s ++ [r₀] ++ [r₁]) o = (s ++ [r₀] ++ [r₁] ++ [r₂], .ok r₂) ∧
      lookupField r₀ "version" = some (.vnum 0) ∧
      lookupField r₁ "version" = some (.vnum 1) ∧
      lookupField r₂ "version" = some (.vnum 2) := by
  have hA : ∀ (s' : Store) (n : Nat),
      (∀ d ∈ s', lookupField d m.modelIdKey = some (.vstr mid) → getVersion d ≤ n) →
      (∃ d ∈ s', lookupField d m.modelIdKey = some (.vstr mid) ∧ getVersion d = n) →
      upsert m s' o = createNewVersion m s' o (n + 1) := by
    intro s' n hmax hex
    unfold upsert
    rw [getNextVersion_of_max hmid hmax hex]
  have hB : upsert m s o = createNewVersion m s o 0 := by
    unfold upsert
    rw [getNextVersion_of_none hmid hno]
  have hm0 := lookupField_newVersionDoc_modelIdKey o mid 0 hkm hmid
  have hm1 := lookupField_newVersionDoc_modelIdKey o mid 1 hkm hmid
  have hv0 := getVersion_newVersionDoc o mid 0
  have hv1 := getVersion_newVersionDoc o mid 1
  have hne_pad : ∀ i j : Nat, i < 3 → j < 3 → i ≠ j →
      generateVersionedModelId (.vstr mid) i ≠ generateVersionedModelId (.vstr mid) j := by
    intro i j hi hj hij
    apply generateVersionedModelId_ne
    · show i < 10 ^ paddingLength
      norm_num [paddingLength]
      omega
    · show j < 10 ^ paddingLength
      norm_num [paddingLength]
      omega
    · exact hij
  have hstep0 : upsert m s o = (s ++ [newVersionDoc o mid 0], .ok (newVersionDoc o mid 0)) := by
    rw [hB, createNewVersion_eq s 0 hmid]
    exact baseCreate_success (fun d hd => by
      rw [lookupField_newVersionDoc_id]
      exact id_free_of_no_model_docs hwf hno 0 d hd)
  have hmax1 : ∀ d ∈ s ++ [newVersionDoc o mid 0],
      lookupField d m.modelIdKey = some (.vstr mid) → getVersion d ≤ 0 := by
    intro d hd hdm
    rcases List.mem_append.mp hd with h | h
    · exact absurd hdm (hno d h)
    · rw [List.mem_singleton] at h
      subst h
      exact Nat.le_of_eq hv0
  have hex1 : ∃ d ∈ s ++ [newVersionDoc o mid 0],
      lookupField d m.modelIdKey = some (.vstr mid) ∧ getVersion d = 0 :=
    ⟨newVersionDoc o mid 0, List.mem_append_right _ (List.mem_singleton_self _), hm0, hv0⟩
  have hstep1 : upsert m (s ++ [newVersionDoc o mid 0]) o
      = (s ++ [newVersionDoc o mid 0] ++ [newVersionDoc o mid 1],
         .ok (newVersionDoc o mid 1)) := by
    rw [hA _ 0 hmax1 hex1, createNewVersion_eq _ (0 + 1) hmid]
    refine baseCreate_success (fun d hd => ?_)
    rw [lookupField_newVersionDoc_id]
    rcases List.mem_append.mp hd with h | h
    · exact id_free_of_no_model_docs hwf hno (0 + 1) d h
    · rw [List.mem_singleton] at h
      subst h
      rw [lookupField_newVersionDoc_id]
      intro hc
      exact hne_pad 0 1 (by omega) (by omega) (by omega)
        (Value.vstr.inj (Option.some.inj hc))
  have hmax2 : ∀ d ∈ s ++ [newVersionDoc o mid 0] ++ [newVersionDoc o mid 1],
      lookupField d m.modelIdKey = some (.vstr mid) → getVersion d ≤ 1 := by
    intro d hd hdm
    rcases List.mem_append.mp hd with h | h
    · rcases List.mem_append.mp h with h' | h'
      · exact absurd hdm (hno d h')
      · rw [List.mem_singleton] at h'
        subst h'
        rw [hv0]
        omega
    · rw [List.mem_singleton] at h
      subst h
      exact Nat.le_of_eq hv1
  have hex2 : ∃ d ∈ s ++ [newVersionDoc o mid 0] ++ [newVersionDoc o mid 1],
      lookupField d m.modelIdKey = some (.vstr mid) ∧ getVersion d = 1 :=
    ⟨newVersionDoc o mid 1, List.mem_append_right _ (List.mem_singleton_self _), hm1, hv1⟩
  have hstep2 : upsert m (s ++ [newVersionDoc o mid 0] ++ [newVersionDoc o mid 1]) o
      = (s ++ [newVersionDoc o mid 0] ++ [newVersionDoc o mid 1] ++ [newVersionDoc o mid 2],
         .ok (newVersionDoc o mid 2)) := by
    rw [hA _ 1 hmax2 hex2, createNewVersion_eq _ (1 + 1) hmid]
    refine baseCreate_success (fun d hd => ?_)
    rw [lookupField_newVersionDoc_id]
    rcases List.mem_append.mp hd with h | h
    · rcases List.mem_append.mp h with h' | h'
      · exact id_free_of_no_model_docs hwf hno (1 + 1) d h'
      · rw [List.mem_singleton] at h'
        subst h'
        rw [lookupField_newVersionDoc_id]
        intro hc
        exact hne_pad 0 2 (by omega) (by omega) (by omega)
          (Value.vstr.inj (Option.some.inj hc))
    · rw [List.mem_singleton] at h
      subst h
      rw [lookupField_newVersionDoc_id]
      intro hc
      exact hne_pad 1 2 (by omega) (by omega) (by omega)
        (Value.vstr.inj (Option.some.inj hc))
  exact ⟨hA, hB, newVersionDoc o mid 0, newVersionDoc o mid 1, newVersionDoc o mid 2,
    hstep0, hstep1, hstep2,
    lookupField_newVersionDoc_version o mid 0, lookupField_newVersionDoc_version o mid 1,
    lookupField_newVersionDoc_version o mid 2⟩

/-- Witness for C3: three upserts on an empty store yield versions 0, 1, 2. -/
theorem upsert_progression_witness :
    ∃ r₀ r₁ r₂,
      upsert ⟨"pk", none⟩ [] [("pk", .vstr "abc")] = ([] ++ [r₀], .ok r₀) ∧
      upsert ⟨"pk", none⟩ ([] ++ [r₀]) [("pk", .vstr "abc")]
        = ([] ++ [r₀] ++ [r₁], .ok r₁) ∧
      upsert ⟨"pk", none⟩ ([] ++ [r₀] ++ [r₁]) [("pk", .vstr "abc")]
        = ([] ++ [r₀] ++ [r₁] ++ [r₂], .ok r₂) ∧
      lookupField r₀ "version" = some (.vnum 0) ∧
      lookupField r₁ "version" = some (.vnum 1) ∧
      lookupField r₂ "version" = some (.vnum 2) :=
  (upsert_progression ⟨"pk", none⟩ [] [("pk", .vstr "abc")] "abc"
    (fun d hd => absurd hd (List.not_mem_nil d)) (by decide) (by decide)
    (fun d hd => absurd hd (List.not_mem_nil d))).2.2

/-! ## Theorems: the flattened iterator -/

theorem flattenNext_pull_empty {α : Type} (i : Nat) (fa : List α) (rest : List (List α))
    (h : fa.length = i) :
    flattenNext ⟨i, fa, [] :: rest⟩ = (.yield none, ⟨i + 1, fa, rest⟩) := by
  simp only [flattenNext]
  rw [if_pos h, List.append_nil, List.getElem?_eq_none (Nat.le_of_eq h)]

theorem flattenToList_run {α : Type} :
    ∀ (N : Nat) (src : List (List α)) (fa : List α) (i : Nat),
      (fa.length - i) + src.flatten.length = N →
      i ≤ fa.length → (∀ a ∈ src, a ≠ []) →
      flattenToList (⟨i, fa, src⟩ : FlattenState α) (N + 1)
        = some ((fa.drop i ++ src.flatten).map some) := by
  intro N
  induction N using Nat.strong_induction_on with
  | _ N ih =>
    intro src fa i hN hle hne
    by_cases hi : fa.length = i
    · cases src with
      | nil =>
        show (match flattenNext ⟨i, fa, []⟩ with
          | (.done, _) => some []
          | (.yield v, s') => (flattenToList s' N).map (v :: ·)) = _
        have hnext : flattenNext (⟨i, fa, []⟩ : FlattenState α) = (.done, ⟨i, fa, []⟩) := by
          simp only [flattenNext]
          rw [if_pos hi]
        rw [hnext, ← hi, List.drop_length]
        rfl
      | cons a rest =>
        cases a with
        | nil => exact absurd rfl (hne [] (List.mem_cons_self _ _))
        | cons a₀ atail =>
          have hnext : flattenNext (⟨i, fa, (a₀ :: atail) :: rest⟩ : FlattenState α)
              = (.yield (some a₀), ⟨i + 1, fa ++ (a₀ :: atail), rest⟩) := by
            simp only [flattenNext]
            rw [if_pos hi, List.getElem?_append_right (Nat.le_of_eq hi)]
            rw [← hi, Nat.sub_self]
            simp
          show (match flattenNext ⟨i, fa, (a₀ :: atail) :: rest⟩ with
            | (.done, _) => some []
            | (.yield v, s') => (flattenToList s' N).map (v :: ·)) = _
          rw [hnext]
          have hN1 : N = (N - 1) + 1 := by
            simp only [List.flatten_cons, List.length_append, List.length_cons] at hN
            omega
          have hmeas : ((fa ++ (a₀ :: atail)).length - (i + 1)) + rest.flatten.length
              = N - 1 := by
            simp only [List.flatten_cons, List.length_append, List.length_cons] at hN ⊢
            omega
          have hrec := ih (N - 1) (by omega) rest (fa ++ (a₀ :: atail)) (i + 1) hmeas
            (by simp only [List.length_append, List.length_cons]; omega)
            (fun a ha => hne a (List.mem_cons_of_mem _ ha))
          rw [hN1]
          simp only [hrec]
          have hdrop : (fa ++ (a₀ :: atail)).drop (i + 1) = atail := by
            have hsplit : fa ++ (a₀ :: atail) = (fa ++ [a₀]) ++ atail := by
              simp
            rw [hsplit]
            apply List.drop_left'
            simp only [List.length_append, List.length_singleton]
            omega
          rw [hdrop, ← hi, List.drop_length]
          simp
    · have hlt : i < fa.length := Nat.lt_of_le_of_ne hle (fun h => hi h.symm)
      have hnext : flattenNext (⟨i, fa, src⟩ : FlattenState α)
          = (.yield (some fa[i]), ⟨i + 1, fa, src⟩) := by
        simp only [flattenNext]
        rw [if_neg hi, List.getElem?_eq_getElem hlt]
      show (match flattenNext ⟨i, fa, src⟩ with
        | (.done, _) => some []
        | (.yield v, s') => (flattenToList s' N).map (v :: ·)) = _
      rw [hnext]
      have hN1 : N = (N - 1) + 1 := by omega
      have hmeas : (fa.length - (i + 1)) + src.flatten.length = N - 1 := by omega
      have hrec := ih (N - 1) (by omega) src fa (i + 1) hmeas (by omega) hne
      rw [hN1]
      simp only [hrec, Option.map_some']
      rw [List.drop_eq_getElem_cons hlt]
      simp only [List.cons_append, List.map_cons]

/-- C9: flattenAsyncIterator does not skip empty inner arrays: when the
buffer is exhausted and the source yields an empty array while not yet
done, next() returns done false with value undefined instead of advancing
to the following array; and for a source whose yielded arrays are all
non-empty, the iterator yields exactly their concatenation in order and
then reports done. -/
theorem flattenAsyncIterator_spec :
    (∀ (α : Type) (i : Nat) (fa : List α) (rest : List (List α)), fa.length = i →
      flattenNext ⟨i, fa, [] :: rest⟩ = (.yield none, ⟨i + 1, fa, rest⟩)) ∧
    (∀ (α : Type) (arrays : List (List α)), (∀ a ∈ arrays, a ≠ []) →
      flattenToList (⟨0, [], arrays⟩ : FlattenState α) (arrays.flatten.length + 1)
        = some (arrays.flatten.map some)) := by
  refine ⟨fun α i fa rest h => flattenNext_pull_empty i fa rest h, fun α arrays hne => ?_⟩
  have h := flattenToList_run arrays.flatten.length arrays [] 0 (by simp)
    (Nat.zero_le _) hne
  simpa using h

/-- Witness for C9: pulling an empty array yields done false with an
undefined value, and flattening non-empty arrays yields their
concatenation. -/
theorem flattenAsyncIterator_spec_witness :
    flattenNext (⟨0, [], [[], [5]]⟩ : FlattenState Nat) = (.yield none, ⟨1, [], [[5]]⟩) ∧
    flattenToList (⟨0, [], [[1], [2, 3]]⟩ : FlattenState Nat)
        (([[1], [2, 3]] : List (List Nat)).flatten.length + 1)
      = some (([[1], [2, 3]] : List (List Nat)).flatten.map some) :=
  ⟨flattenAsyncIterator_spec.1 Nat 0 [] [[5]] rfl,
   flattenAsyncIterator_spec.2 Nat [[1], [2, 3]] (by decide)⟩

end Spec2Proof
